import Mathlib

/-!
Verification of the string/quantity utility helpers of the
openshift-client-python repository (`packages/openshift/util.py`).

Strings are embedded as `List Char` (with `String.data` bridging concrete
literals).  Python floats are embedded as `ℚ`; the builtin `float(s)`
conversion is embedded as the parser `pyFloat?`, which accepts the finite
float literals Python accepts (optional surrounding whitespace, optional
sign, digits with an optional decimal point, an optional exponent) and
returns `none` where Python's `float` raises `ValueError`.  (`inf`/`nan`
inputs, which have no rational value, are out of scope of the claims and
are mapped to `none`.)  `None` arguments are embedded as `Option`.
-/

/-- The whitespace test used by Python's `str.strip()` / `float()`
(space, tab, newline, carriage return, vertical tab, form feed). -/
def pyIsSpace (c : Char) : Bool :=
  c == ' ' || c == '\t' || c == '\n' || c == '\r' || c == '\x0b' || c == '\x0c'

/-- Value of a list of decimal digit characters, most significant first. -/
def digitsToNat (ds : List Char) : Nat :=
  ds.foldl (fun a c => a * 10 + (c.toNat - '0'.toNat)) 0

/-- Natural power on ℚ by iterated multiplication (kernel-evaluable). -/
def qpowNat (b : ℚ) : Nat → ℚ
  | 0 => 1
  | n + 1 => b * qpowNat b n

/-- Integer power on ℚ, mirroring Python's `pow(base, e)` for integer `e`. -/
def qpow (b : ℚ) (e : ℤ) : ℚ :=
  match e with
  | Int.ofNat n => qpowNat b n
  | Int.negSucc n => 1 / qpowNat b (n + 1)

/-- Embedding of Python's `float(s)` on finite literals: strips surrounding
whitespace, then an optional sign, a mantissa `digits[.digits]` or `.digits`,
and an optional exponent `e[sign]digits`; `none` models `ValueError`. -/
def pyFloat? (cs : List Char) : Option ℚ :=
  let cs1 := cs.dropWhile pyIsSpace
  let cs2 := (cs1.reverse.dropWhile pyIsSpace).reverse
  let sgn : ℚ × List Char :=
    match cs2 with
    | '+' :: t => (1, t)
    | '-' :: t => (-1, t)
    | t => (1, t)
  let ip := sgn.2.span Char.isDigit
  let fp : List Char × List Char :=
    match ip.2 with
    | '.' :: t => t.span Char.isDigit
    | t => ([], t)
  if ip.1 = [] ∧ fp.1 = [] then none
  else
    let mant : ℚ := (digitsToNat (ip.1 ++ fp.1) : ℚ) / qpowNat 10 fp.1.length
    match fp.2 with
    | [] => some (sgn.1 * mant)
    | e :: t =>
      if e = 'e' ∨ e = 'E' then
        let esgn : ℤ × List Char :=
          match t with
          | '+' :: t2 => (1, t2)
          | '-' :: t2 => (-1, t2)
          | t2 => (1, t2)
        let eds := esgn.2.span Char.isDigit
        if eds.1 = [] ∨ eds.2 ≠ [] then none
        else some (sgn.1 * mant * qpow 10 (esgn.1 * (digitsToNat eds.1 : ℤ)))
      else none

/-- The error raised when a numeric-prefix substring cannot be converted
to a float (Python's `ValueError` from `float`, called
`NumericConversionError` by the specification). -/
inductive NumericConversionError where
  | numericConversionError
  deriving DecidableEq

/-- The table `_unit_scales`: the unit scale table used by kubernetes
(`util.py` line 152). -/
def _unit_scales : List (Char × ℤ) :=
  [('n', -3), ('u', -2), ('m', -1), ('k', 1), ('K', 1),
   ('M', 2), ('G', 3), ('T', 4), ('P', 5), ('E', 6)]

/-- Membership lookup `_unit_scales[unit]` (with `unit in _unit_scales`
modelled by the lookup succeeding). -/
def unitScale? (c : Char) : Option ℤ :=
  _unit_scales.lookup c

/-- The tail of `extract_numerical_value` after `base`, `power_scale` and
`unit_place` have been fixed (lines 169-180 of `util.py`).  The Python
index `unit_place ∈ {-1, -2}` is encoded as the positive offset from the
end `unit_place ∈ {1, 2}`, so `val[unit_place]` is
`cs.getD (cs.length - unit_place)` and `val[:unit_place]` is
`cs.take (cs.length - unit_place)`.  The callers guarantee
`unit_place ≤ cs.length`, so the `getD` default is never consulted. -/
def extract_scaled (base : ℚ) (power_scale : ℤ) (unit_place : Nat)
    (cs : List Char) : Except NumericConversionError ℚ :=
  let unit : Char := cs.getD (cs.length - unit_place) ' '
  match unitScale? unit with
  | some power =>
    if (cs.take (cs.length - unit_place)).length = 0 then
      Except.ok (0 * qpow base (power * power_scale))
    else
      match pyFloat? (cs.take (cs.length - unit_place)) with
      | some value => Except.ok (value * qpow base (power * power_scale))
      | none => Except.error NumericConversionError.numericConversionError
  | none =>
    if unit_place = 2 then
      match pyFloat? (cs.take (cs.length - 1)) with
      | some value => Except.ok (value * qpow base (0 * power_scale))
      | none => Except.error NumericConversionError.numericConversionError
    else
      match pyFloat? cs with
      | some value => Except.ok (value * qpow base (0 * power_scale))
      | none => Except.error NumericConversionError.numericConversionError

/-- The function `extract_numerical_value` (`util.py` lines 153-180): extract the
numerical value from a quantity string, removing any units present.
`none` is Python's `None`; `if not val` covers `None` and `""`. -/
def extract_numerical_value (val : Option (List Char)) :
    Except NumericConversionError ℚ :=
  match val with
  | none => Except.ok 0
  | some cs =>
    if cs = [] then Except.ok 0
    else if cs.getLast? = some 'i' then
      if cs.length < 3 then Except.ok 0
      else extract_scaled 2 10 2 cs
    else extract_scaled 10 3 1 cs

/-- The function `parse_quantity`, the specification's name for
`extract_numerical_value`, taking Lean `String`s. -/
def parse_quantity (s : Option String) : Except NumericConversionError ℚ :=
  extract_numerical_value (s.map String.data)

/-- The substring that `extract_numerical_value` hands to `float`, when it
calls `float` at all: the whole string, the string minus a recognized unit
letter (and any trailing `i`), or the string minus a trailing `i` in the
unmatched-binary fallback; `none` when the code returns without calling
`float` (empty input, binary suffix shorter than 3 characters, or a
recognized unit with empty numeric prefix). -/
def float_arg (cs : List Char) : Option (List Char) :=
  if cs = [] then none
  else if cs.getLast? = some 'i' then
    if cs.length < 3 then none
    else if (unitScale? (cs.getD (cs.length - 2) ' ')).isSome then
      if (cs.take (cs.length - 2)).length = 0 then none
      else some (cs.take (cs.length - 2))
    else some (cs.take (cs.length - 1))
  else if (unitScale? (cs.getD (cs.length - 1) ' ')).isSome then
    if (cs.take (cs.length - 1)).length = 0 then none
    else some (cs.take (cs.length - 1))
  else some cs

/-- Python `str.lstrip()` on the default whitespace set. -/
def lstrip (l : List Char) : List Char :=
  l.dropWhile pyIsSpace

/-- Python `str.rstrip()` on the default whitespace set. -/
def rstrip (l : List Char) : List Char :=
  (l.reverse.dropWhile pyIsSpace).reverse

/-- Python `str.strip()`: whitespace removed from both ends. -/
def strip (l : List Char) : List Char :=
  rstrip (lstrip l)

/-- Worker for `splitNl`; `acc` holds the current piece reversed. -/
def splitNlAux : List Char → List Char → List (List Char)
  | [], acc => [acc.reverse]
  | c :: t, acc =>
    if c = '\n' then acc.reverse :: splitNlAux t []
    else splitNlAux t (c :: acc)

/-- Python `s.split("\n")`: split on every newline, keeping empty pieces
(`"".split("\n") == [""]`). -/
def splitNl (l : List Char) : List (List Char) :=
  splitNlAux l []

/-- Python `"\n".join(parts)`. -/
def joinNl : List (List Char) → List Char
  | [] => []
  | [x] => x
  | x :: xs => x ++ '\n' :: joinNl xs

/-- The function `split_names` (`util.py` lines 84-93): split `-o=name` output into a
list of qualified object names.  The comprehension
`[x.strip() for x in output.strip().split("\n") if x.strip() != ""]`
is a filter followed by a map. -/
def split_names (output : Option (List Char)) : List (List Char) :=
  match output with
  | none => []
  | some out =>
    ((splitNl (strip out)).filter (fun x => !(strip x).isEmpty)).map strip

/-- Worker for `splitlines`; `acc` holds the current line reversed.
Python 2 `str.splitlines(True)` recognizes `\r\n`, `\r` and `\n` as line
boundaries and keeps them; a last line without a terminator is kept, and
`"".splitlines(True) == []`. -/
def splitlinesAux : List Char → List Char → List (List Char)
  | [], acc => if acc.isEmpty then [] else [acc.reverse]
  | c :: t, acc =>
    if c = '\r' then
      if t.head? = some '\n' then
        (acc.reverse ++ ['\r', '\n']) :: splitlinesAux t.tail []
      else (acc.reverse ++ ['\r']) :: splitlinesAux t []
    else if c = '\n' then (acc.reverse ++ ['\n']) :: splitlinesAux t []
    else splitlinesAux t (c :: acc)
  termination_by l _ => l.length
  decreasing_by
    all_goals simp [List.length_tail]
    omega

/-- Python `text.splitlines(True)`. -/
def splitlines (l : List Char) : List (List Char) :=
  splitlinesAux l []

/-- The function `indent_lines` (`util.py` lines 100-101):
`''.join(padding + line for line in text.splitlines(True))`. -/
def indent_lines (text : List Char) (padding : List Char) : List Char :=
  ((splitlines text).map (fun line => padding ++ line)).flatten

/-! ### Helper lemmas -/

theorem qpowNat_eq_pow (b : ℚ) (n : ℕ) : qpowNat b n = b ^ n := by
  induction n with
  | zero => simp [qpowNat]
  | succ n ih => rw [qpowNat, ih, pow_succ]; ring

theorem qpow_eq_zpow (b : ℚ) (e : ℤ) : qpow b e = b ^ e := by
  cases e with
  | ofNat n => simp [qpow, qpowNat_eq_pow]
  | negSucc n => simp [qpow, qpowNat_eq_pow, zpow_negSucc, one_div]

theorem pyFloat?_nil : pyFloat? [] = none := by with_unfolding_all decide

theorem pyFloat?_ne_nil {p : List Char} {q : ℚ} (h : pyFloat? p = some q) :
    p ≠ [] := by
  intro hn
  rw [hn, pyFloat?_nil] at h
  exact Option.noConfusion h

theorem unitScale?_ne_i {u : Char} {e : ℤ} (h : unitScale? u = some e) :
    u ≠ 'i' := by
  intro hu
  rw [hu, show unitScale? 'i' = none from by decide] at h
  exact Option.noConfusion h

/-! ### Claim C1 -/

/-- C1: for every unit letter `u` in the decimal suffix table and every
numeric prefix `p` accepted by `float`, parsing `p ++ u` yields
`p * 10^(table[u]*3)`; in particular `parse_quantity "10k"` and
`parse_quantity "10K"` both return `10000`. -/
theorem claim_C1_decimal_units :
    (∀ (p : List Char) (q : ℚ) (u : Char) (e : ℤ),
        pyFloat? p = some q → unitScale? u = some e →
        extract_numerical_value (some (p ++ [u])) =
          Except.ok (q * qpow 10 (e * 3)))
    ∧ parse_quantity (some "10k") = Except.ok 10000
    ∧ parse_quantity (some "10K") = Except.ok 10000 := by
  have hmain : ∀ (p : List Char) (q : ℚ) (u : Char) (e : ℤ),
      pyFloat? p = some q → unitScale? u = some e →
      extract_numerical_value (some (p ++ [u])) =
        Except.ok (q * qpow 10 (e * 3)) := by
    intro p q u e hp hu
    have hpne : p ≠ [] := pyFloat?_ne_nil hp
    have hlast : (p ++ [u]).getLast? = some u := List.getLast?_concat p
    have hlen : (p ++ [u]).length - 1 = p.length := by simp
    have hni : ¬ ((p ++ [u]).getLast? = some 'i') := by
      rw [hlast]
      intro hc
      exact unitScale?_ne_i hu (Option.some.injEq u 'i' ▸ hc)
    rw [extract_numerical_value, if_neg (by simp), if_neg hni, extract_scaled]
    simp only [hlen, List.take_left, List.getD, List.get?_eq_getElem?, List.getElem?_concat_length,
      Option.getD_some, hu]
    rw [if_neg (by simpa using hpne), hp]
  refine ⟨hmain, ?_, ?_⟩
  · show extract_numerical_value (some "10k".data) = Except.ok 10000
    rw [show ("10k".data : List Char) = "10".data ++ ['k'] from by decide,
      hmain "10".data 10 'k' 1 (by with_unfolding_all decide) (by decide),
      qpow_eq_zpow]
    norm_num
  · show extract_numerical_value (some "10K".data) = Except.ok 10000
    rw [show ("10K".data : List Char) = "10".data ++ ['K'] from by decide,
      hmain "10".data 10 'K' 1 (by with_unfolding_all decide) (by decide),
      qpow_eq_zpow]
    norm_num

theorem claim_C1_decimal_units_witness :
    extract_numerical_value (some ("10".data ++ ['k'])) =
      Except.ok (10 * qpow 10 (1 * 3)) :=
  claim_C1_decimal_units.1 "10".data 10 'k' 1 (by with_unfolding_all decide)
    (by decide)

/-! ### Claim C2 -/

/-- C2: `extract_numerical_value` fails with a `NumericConversionError`
exactly when the substring it hands to `float` (`float_arg`) exists, is
non-empty, and is not accepted by `float`; in particular
`parse_quantity "abc"` fails. -/
theorem claim_C2_conversion_error :
    (∀ cs : List Char,
        (extract_numerical_value (some cs) =
            Except.error NumericConversionError.numericConversionError
          ↔ ∃ s, float_arg cs = some s ∧ s ≠ [] ∧ pyFloat? s = none))
    ∧ parse_quantity (some "abc") =
        Except.error NumericConversionError.numericConversionError := by
  have hmain : ∀ cs : List Char,
      (extract_numerical_value (some cs) =
          Except.error NumericConversionError.numericConversionError
        ↔ ∃ s, float_arg cs = some s ∧ s ≠ [] ∧ pyFloat? s = none) := by
    intro cs
    by_cases h0 : cs = []
    · subst h0
      simp [extract_numerical_value, float_arg]
    · by_cases hlast : cs.getLast? = some 'i'
      · by_cases hlen : cs.length < 3
        · rw [extract_numerical_value, if_neg h0, if_pos hlast, if_pos hlen]
          rw [float_arg, if_neg h0, if_pos hlast, if_pos hlen]
          simp
        · have hlen3 : 3 ≤ cs.length := le_of_not_lt hlen
          have htk1 : (cs.take (cs.length - 1)) ≠ [] := by
            have h := List.length_take (cs.length - 1) cs
            intro hh
            rw [hh] at h
            simp at h
            omega
          have htk2 : (cs.take (cs.length - 2)).length = cs.length - 2 := by
            rw [List.length_take]
            omega
          rw [extract_numerical_value, if_neg h0, if_pos hlast, if_neg hlen]
          simp only [extract_scaled]
          cases hsc : unitScale? ((cs[cs.length - 2]?).getD ' ') with
          | none =>
            cases hpf : pyFloat? (cs.take (cs.length - 1)) with
            | none => simp [float_arg, h0, hlast, hlen, hsc, hpf, htk1]
            | some v => simp [float_arg, h0, hlast, hlen, hsc, hpf]
          | some power =>
            have hne0 : ¬ (cs.take (cs.length - 2)).length = 0 := by omega
            have h2 : ¬ cs.length - 2 = 0 := by omega
            have htk2ne : cs.take (cs.length - 2) ≠ [] := by
              intro hh
              rw [hh] at htk2
              simp at htk2
              omega
            cases hpf : pyFloat? (cs.take (cs.length - 2)) with
            | none => simp [float_arg, h0, hlast, hlen, hsc, hpf, hne0, htk2ne, h2]
            | some v => simp [float_arg, h0, hlast, hlen, hsc, hpf, hne0, h2]
      · rw [extract_numerical_value, if_neg h0, if_neg hlast]
        simp only [extract_scaled]
        cases hsc : unitScale? ((cs[cs.length - 1]?).getD ' ') with
        | none =>
          cases hpf : pyFloat? cs with
          | none => simp [float_arg, h0, hlast, hsc, hpf]
          | some v => simp [float_arg, h0, hlast, hsc, hpf]
        | some power =>
          by_cases hz : (cs.take (cs.length - 1)).length = 0
          · simp [float_arg, h0, hlast, hsc, hz]
          · have htk1ne : cs.take (cs.length - 1) ≠ [] := by
              intro hh
              rw [hh] at hz
              simp at hz
            have hz1 : ¬ cs.length - 1 = 0 := by
              rw [List.length_take] at hz
              omega
            cases hpf : pyFloat? (cs.take (cs.length - 1)) with
            | none => simp [float_arg, h0, hlast, hsc, hz, hpf, htk1ne, hz1]
            | some v => simp [float_arg, h0, hlast, hsc, hz, hpf, hz1]
  refine ⟨hmain, ?_⟩
  show extract_numerical_value (some "abc".data) =
    Except.error NumericConversionError.numericConversionError
  exact (hmain "abc".data).mpr
    ⟨"abc".data, by decide, by decide, by with_unfolding_all decide⟩

theorem claim_C2_conversion_error_witness :
    extract_numerical_value (some "abc".data) =
      Except.error NumericConversionError.numericConversionError :=
  (claim_C2_conversion_error.1 "abc".data).mpr
    ⟨"abc".data, by decide, by decide, by with_unfolding_all decide⟩

/-! ### Claim C3 -/

/-- C3: for every string of length at least 3 ending in `i` whose
second-to-last character is in the unit table and whose numeric prefix is
accepted by `float`, the result is `prefix * 2^(table[unit]*10)`; in
particular `parse_quantity "10Ki" = 10240` and
`parse_quantity "2Gi" = 2147483648`. -/
theorem claim_C3_binary_units :
    (∀ (cs : List Char) (q : ℚ) (e : ℤ),
        cs.getLast? = some 'i' → 3 ≤ cs.length →
        unitScale? ((cs[cs.length - 2]?).getD ' ') = some e →
        pyFloat? (cs.take (cs.length - 2)) = some q →
        extract_numerical_value (some cs) = Except.ok (q * qpow 2 (e * 10)))
    ∧ parse_quantity (some "10Ki") = Except.ok 10240
    ∧ parse_quantity (some "2Gi") = Except.ok 2147483648 := by
  have hmain : ∀ (cs : List Char) (q : ℚ) (e : ℤ),
      cs.getLast? = some 'i' → 3 ≤ cs.length →
      unitScale? ((cs[cs.length - 2]?).getD ' ') = some e →
      pyFloat? (cs.take (cs.length - 2)) = some q →
      extract_numerical_value (some cs) = Except.ok (q * qpow 2 (e * 10)) := by
    intro cs q e hlast hlen hsc hpf
    have hne : cs ≠ [] := by
      intro h
      rw [h] at hlen
      simp at hlen
    have h2 : ¬ cs.length - 2 = 0 := by omega
    rw [extract_numerical_value, if_neg hne, if_pos hlast,
      if_neg (by omega : ¬ cs.length < 3)]
    simp only [extract_scaled]
    simp [hsc, hpf, h2]
  refine ⟨hmain, ?_, ?_⟩
  · show extract_numerical_value (some "10Ki".data) = Except.ok 10240
    rw [hmain "10Ki".data 10 1 (by decide) (by decide) (by decide)
        (by with_unfolding_all decide),
      qpow_eq_zpow]
    norm_num
  · show extract_numerical_value (some "2Gi".data) = Except.ok 2147483648
    rw [hmain "2Gi".data 2 3 (by decide) (by decide) (by decide)
        (by with_unfolding_all decide),
      qpow_eq_zpow]
    norm_num

theorem claim_C3_binary_units_witness :
    extract_numerical_value (some "10Ki".data) =
      Except.ok (10 * qpow 2 (1 * 10)) :=
  claim_C3_binary_units.1 "10Ki".data 10 1 (by decide) (by decide) (by decide)
    (by with_unfolding_all decide)

/-! ### Claim C4 -/

/-- C4: empty input and absent (`None`) input both give `0` (and in
particular no `NumericConversionError`). -/
theorem claim_C4_empty_and_none :
    parse_quantity none = Except.ok 0
    ∧ parse_quantity (some "") = Except.ok 0 := by
  exact ⟨rfl, by with_unfolding_all rfl⟩

/-! ### Claim C5 -/

/-- C5: a non-empty string ending in `i` of length under 3 yields `0`;
otherwise the binary branch runs the rest of the computation with
`base = 2`, `power_scale = 10` and the unit letter taken second from
the end (`unit_place` offset 2). -/
theorem claim_C5_binary_branch :
    (∀ cs : List Char, cs ≠ [] → cs.getLast? = some 'i' → cs.length < 3 →
        extract_numerical_value (some cs) = Except.ok 0)
    ∧ (∀ cs : List Char, cs.getLast? = some 'i' → 3 ≤ cs.length →
        extract_numerical_value (some cs) = extract_scaled 2 10 2 cs) := by
  constructor
  · intro cs hne hlast hlen
    rw [extract_numerical_value, if_neg hne, if_pos hlast, if_pos hlen]
  · intro cs hlast hlen
    have hne : cs ≠ [] := by
      intro h
      rw [h] at hlen
      simp at hlen
    rw [extract_numerical_value, if_neg hne, if_pos hlast,
      if_neg (by omega : ¬ cs.length < 3)]

theorem claim_C5_binary_branch_witness :
    extract_numerical_value (some "xi".data) = Except.ok 0
    ∧ extract_numerical_value (some "10Ki".data) =
        extract_scaled 2 10 2 "10Ki".data :=
  ⟨claim_C5_binary_branch.1 "xi".data (by decide) (by decide) (by decide),
   claim_C5_binary_branch.2 "10Ki".data (by decide) (by decide)⟩

/-! ### Claim C6 -/

/-- C6: a string of length at least 3 ending in `i` whose second-to-last
character is not in the unit table takes the whole string minus the
trailing `i` as numeric prefix with exponent 0, so the result is just
that number; in particular `parse_quantity "10i" = 10`. -/
theorem claim_C6_unmatched_binary :
    (∀ (cs : List Char) (q : ℚ),
        cs.getLast? = some 'i' → 3 ≤ cs.length →
        unitScale? ((cs[cs.length - 2]?).getD ' ') = none →
        pyFloat? (cs.take (cs.length - 1)) = some q →
        extract_numerical_value (some cs) = Except.ok q)
    ∧ parse_quantity (some "10i") = Except.ok 10 := by
  have hmain : ∀ (cs : List Char) (q : ℚ),
      cs.getLast? = some 'i' → 3 ≤ cs.length →
      unitScale? ((cs[cs.length - 2]?).getD ' ') = none →
      pyFloat? (cs.take (cs.length - 1)) = some q →
      extract_numerical_value (some cs) = Except.ok q := by
    intro cs q hlast hlen hsc hpf
    have hne : cs ≠ [] := by
      intro h
      rw [h] at hlen
      simp at hlen
    rw [extract_numerical_value, if_neg hne, if_pos hlast,
      if_neg (by omega : ¬ cs.length < 3)]
    simp only [extract_scaled]
    simp only [List.getD_eq_getElem?_getD, hsc, hpf]
    rw [qpow_eq_zpow]
    norm_num
  refine ⟨hmain, ?_⟩
  show extract_numerical_value (some "10i".data) = Except.ok 10
  exact hmain "10i".data 10 (by decide) (by decide) (by decide)
    (by with_unfolding_all decide)

theorem claim_C6_unmatched_binary_witness :
    extract_numerical_value (some "10i".data) = Except.ok 10 :=
  claim_C6_unmatched_binary.1 "10i".data 10 (by decide) (by decide)
    (by decide) (by with_unfolding_all decide)

/-! ### Claim C7 -/

/-- C7: when the selected unit letter is in the table but the numeric
prefix before it is empty, the result is `0` rather than an error; in
particular `parse_quantity "k" = 0`. -/
theorem claim_C7_bare_unit :
    (∀ (u : Char) (e : ℤ), unitScale? u = some e →
        extract_numerical_value (some [u]) = Except.ok 0)
    ∧ parse_quantity (some "k") = Except.ok 0 := by
  have hmain : ∀ (u : Char) (e : ℤ), unitScale? u = some e →
      extract_numerical_value (some [u]) = Except.ok 0 := by
    intro u e hu
    have hui : u ≠ 'i' := unitScale?_ne_i hu
    rw [extract_numerical_value, if_neg (by simp),
      if_neg (by simp [hui] : ¬ ([u].getLast? = some 'i'))]
    simp only [extract_scaled]
    simp [hu]
  refine ⟨hmain, ?_⟩
  show extract_numerical_value (some "k".data) = Except.ok 0
  rw [show ("k".data : List Char) = ['k'] from by decide]
  exact hmain 'k' 1 (by decide)

theorem claim_C7_bare_unit_witness :
    extract_numerical_value (some ['k']) = Except.ok 0 :=
  claim_C7_bare_unit.1 'k' 1 (by decide)

/-! ### String-stripping lemmas for `split_names` -/

theorem dropWhile_eq_cons_head_false {p : Char → Bool} {a : Char}
    {t : List Char} : ∀ {l : List Char}, l.dropWhile p = a :: t →
    p a = false := by
  intro l
  induction l with
  | nil => intro h; exact absurd h (by simp)
  | cons b u ih =>
    intro h
    rw [List.dropWhile_cons] at h
    by_cases hb : p b = true
    · rw [if_pos hb] at h
      exact ih h
    · rw [if_neg hb] at h
      obtain ⟨rfl, -⟩ := List.cons.inj h
      simpa using hb

theorem rstrip_append (l : List Char) : ∃ t, rstrip l ++ t = l := by
  obtain ⟨s, hs⟩ := List.dropWhile_suffix (l := l.reverse) pyIsSpace
  refine ⟨s.reverse, ?_⟩
  have := congrArg List.reverse hs
  simpa [rstrip] using this

theorem lstrip_lstrip (l : List Char) : lstrip (lstrip l) = lstrip l :=
  List.dropWhile_idempotent pyIsSpace l

theorem rstrip_rstrip (l : List Char) : rstrip (rstrip l) = rstrip l := by
  rw [rstrip, rstrip, List.reverse_reverse, List.dropWhile_idempotent]

theorem lstrip_cons_of_false {a : Char} {t : List Char}
    (h : pyIsSpace a = false) : lstrip (a :: t) = a :: t := by
  simp [lstrip, List.dropWhile_cons, h]

theorem lstrip_rstrip_of_lstrip {m : List Char} (h : lstrip m = m) :
    lstrip (rstrip m) = rstrip m := by
  cases hm : rstrip m with
  | nil => simp [lstrip]
  | cons a t =>
    obtain ⟨t2, ht2⟩ := rstrip_append m
    rw [hm] at ht2
    have hp : pyIsSpace a = false := by
      refine dropWhile_eq_cons_head_false (l := m) (t := t ++ t2) ?_
      rw [show m.dropWhile pyIsSpace = lstrip m from rfl, h, ← ht2]
      simp
    exact lstrip_cons_of_false hp

theorem strip_strip (l : List Char) : strip (strip l) = strip l := by
  rw [strip, strip, lstrip_rstrip_of_lstrip (lstrip_lstrip l), rstrip_rstrip]

theorem mem_of_mem_lstrip {a : Char} {l : List Char} (h : a ∈ lstrip l) :
    a ∈ l := by
  obtain ⟨s, hs⟩ := List.dropWhile_suffix (l := l) pyIsSpace
  rw [← hs]
  exact List.mem_append_right s h

theorem mem_of_mem_rstrip {a : Char} {l : List Char} (h : a ∈ rstrip l) :
    a ∈ l := by
  obtain ⟨t2, ht2⟩ := rstrip_append l
  rw [← ht2]
  exact List.mem_append_left t2 h

theorem mem_of_mem_strip {a : Char} {l : List Char} (h : a ∈ strip l) :
    a ∈ l :=
  mem_of_mem_lstrip (mem_of_mem_rstrip h)

theorem splitNlAux_no_nl {x : List Char} :
    ∀ (l acc : List Char), '\n' ∉ acc → x ∈ splitNlAux l acc → '\n' ∉ x := by
  intro l
  induction l with
  | nil =>
    intro acc hacc hx
    rw [splitNlAux] at hx
    simp only [List.mem_singleton] at hx
    rw [hx]
    simpa using hacc
  | cons c t ih =>
    intro acc hacc hx
    rw [splitNlAux] at hx
    by_cases hc : c = '\n'
    · rw [if_pos hc] at hx
      rcases List.mem_cons.mp hx with h1 | h2
      · rw [h1]
        simpa using hacc
      · exact ih [] (by simp) h2
    · rw [if_neg hc] at hx
      refine ih (c :: acc) ?_ hx
      intro hmem
      rcases List.mem_cons.mp hmem with h1 | h2
      · exact hc h1.symm
      · exact hacc h2

theorem split_names_mem {cs x : List Char} (hx : x ∈ split_names (some cs)) :
    x ≠ [] ∧ strip x = x ∧ '\n' ∉ x := by
  rw [split_names] at hx
  obtain ⟨y, hy, rfl⟩ := List.mem_map.mp hx
  have hyf := List.mem_filter.mp hy
  have hynl : '\n' ∉ y := splitNlAux_no_nl (strip cs) [] (by simp) hyf.1
  refine ⟨by simpa using hyf.2, strip_strip y, fun hmem => hynl ?_⟩
  exact mem_of_mem_strip hmem

/-! ### Claim C8 -/

/-- C8: `split_names None` is the empty list, and every element of any
`split_names` result is non-empty and equal to its own stripped form. -/
theorem claim_C8_split_names_clean :
    split_names none = []
    ∧ ∀ (cs x : List Char), x ∈ split_names (some cs) →
        x ≠ [] ∧ strip x = x := by
  refine ⟨rfl, fun cs x hx => ?_⟩
  obtain ⟨h1, h2, -⟩ := split_names_mem hx
  exact ⟨h1, h2⟩

theorem claim_C8_split_names_clean_witness :
    "a/b".data ≠ [] ∧ strip "a/b".data = "a/b".data :=
  claim_C8_split_names_clean.2 " a/b \nc/d".data "a/b".data
    (by with_unfolding_all decide)

/-! ### Round-trip lemmas for `split_names` idempotence -/

theorem splitNlAux_of_no_nl {x : List Char} (hx : '\n' ∉ x) :
    ∀ acc : List Char, splitNlAux x acc = [acc.reverse ++ x] := by
  induction x with
  | nil => intro acc; rw [splitNlAux]; simp
  | cons c u ih =>
    intro acc
    have hc : ¬ c = '\n' := fun h => hx (by rw [h]; simp)
    rw [splitNlAux, if_neg hc, ih (fun h => hx (List.mem_cons_of_mem c h))]
    simp

theorem splitNlAux_append_nl {x : List Char} (hx : '\n' ∉ x) :
    ∀ acc r : List Char,
      splitNlAux (x ++ '\n' :: r) acc = (acc.reverse ++ x) :: splitNlAux r [] := by
  induction x with
  | nil =>
    intro acc r
    rw [List.nil_append, splitNlAux, if_pos rfl]
    simp
  | cons c u ih =>
    intro acc r
    have hc : ¬ c = '\n' := fun h => hx (by rw [h]; simp)
    rw [List.cons_append, splitNlAux, if_neg hc,
      ih (fun h => hx (List.mem_cons_of_mem c h))]
    simp

theorem splitNl_joinNl :
    ∀ parts : List (List Char), parts ≠ [] →
      (∀ x ∈ parts, '\n' ∉ x) → splitNl (joinNl parts) = parts := by
  intro parts
  induction parts with
  | nil => intro h; exact absurd rfl h
  | cons x rest ih =>
    intro _ hnl
    cases rest with
    | nil =>
      show splitNl (joinNl [x]) = [x]
      rw [joinNl, splitNl, splitNlAux_of_no_nl (hnl x (by simp))]
      simp
    | cons y rest2 =>
      have hj : joinNl (x :: y :: rest2) = x ++ '\n' :: joinNl (y :: rest2) :=
        rfl
      rw [hj, splitNl, splitNlAux_append_nl (hnl x (by simp))]
      simp only [List.reverse_nil, List.nil_append]
      have := ih (by simp) (fun z hz => hnl z (List.mem_cons_of_mem x hz))
      rw [splitNl] at this
      rw [this]

theorem joinNl_cons_exists (x : List Char) (rest : List (List Char)) :
    ∃ r, joinNl (x :: rest) = x ++ r := by
  cases rest with
  | nil => exact ⟨[], by rw [joinNl]; simp⟩
  | cons y rest2 => exact ⟨'\n' :: joinNl (y :: rest2), rfl⟩

theorem joinNl_reverse :
    ∀ (parts : List (List Char)) (y : List Char), parts.getLast? = some y →
      ∃ r, (joinNl parts).reverse = y.reverse ++ r := by
  intro parts
  induction parts with
  | nil => intro y h; exact absurd h (by simp)
  | cons x rest ih =>
    intro y h
    cases rest with
    | nil =>
      refine ⟨[], ?_⟩
      simp only [List.getLast?_singleton, Option.some.injEq] at h
      rw [joinNl, h]
      simp
    | cons z rest2 =>
      rw [List.getLast?_cons_cons] at h
      obtain ⟨r, hr⟩ := ih y h
      refine ⟨r ++ '\n' :: x.reverse, ?_⟩
      have hj : joinNl (x :: z :: rest2) = x ++ '\n' :: joinNl (z :: rest2) :=
        rfl
      rw [hj, List.reverse_append, List.reverse_cons, hr]
      simp

theorem head_false_of_strip_fix {x : List Char} {a : Char} {t : List Char}
    (h : strip x = x) (hx : x = a :: t) : pyIsSpace a = false := by
  obtain ⟨t2, ht2⟩ := rstrip_append (lstrip x)
  rw [show rstrip (lstrip x) = strip x from rfl, h] at ht2
  have hlen : (lstrip x).length ≤ x.length :=
    (List.dropWhile_suffix pyIsSpace).length_le
  have ht2nil : t2 = [] := by
    have hl := congrArg List.length ht2
    simp only [List.length_append] at hl
    rw [← List.length_eq_zero]
    omega
  rw [ht2nil, List.append_nil] at ht2
  refine dropWhile_eq_cons_head_false (l := x) (t := t) ?_
  rw [show x.dropWhile pyIsSpace = lstrip x from rfl, ← ht2, hx]

theorem rev_head_false_of_strip_fix {x : List Char} {a : Char}
    {t : List Char} (h : strip x = x) (hrev : x.reverse = a :: t) :
    pyIsSpace a = false := by
  have hx : x.reverse = (lstrip x).reverse.dropWhile pyIsSpace := by
    conv_lhs => rw [← h]
    rw [strip, rstrip, List.reverse_reverse]
  rw [hrev] at hx
  exact dropWhile_eq_cons_head_false hx.symm

theorem strip_joinNl (parts : List (List Char)) (hne : parts ≠ [])
    (hfix : ∀ x ∈ parts, strip x = x ∧ x ≠ []) :
    strip (joinNl parts) = joinNl parts := by
  obtain ⟨x, rest, rfl⟩ := List.exists_cons_of_ne_nil hne
  obtain ⟨a, t, hx⟩ := List.exists_cons_of_ne_nil (hfix x (by simp)).2
  have hhead : pyIsSpace a = false :=
    head_false_of_strip_fix (hfix x (by simp)).1 hx
  obtain ⟨r, hr⟩ := joinNl_cons_exists x rest
  have hl : lstrip (joinNl (x :: rest)) = joinNl (x :: rest) := by
    rw [hr, hx, List.cons_append]
    exact lstrip_cons_of_false hhead
  obtain ⟨y, hy⟩ : ∃ y, (x :: rest).getLast? = some y :=
    ⟨_, List.getLast?_eq_getLast _ (by simp)⟩
  have hymem : y ∈ x :: rest := List.mem_of_mem_getLast? hy
  obtain ⟨b, u, hyrev⟩ : ∃ b u, y.reverse = b :: u := by
    obtain ⟨b, u, hbu⟩ :=
      List.exists_cons_of_ne_nil (l := y.reverse) (by simp [(hfix y hymem).2])
    exact ⟨b, u, hbu⟩
  have hbf : pyIsSpace b = false :=
    rev_head_false_of_strip_fix (hfix y hymem).1 hyrev
  obtain ⟨r2, hr2⟩ := joinNl_reverse (x :: rest) y hy
  have hrstr : rstrip (joinNl (x :: rest)) = joinNl (x :: rest) := by
    rw [rstrip, hr2, hyrev, List.cons_append,
      List.dropWhile_cons_of_neg (by simp [hbf]), ← List.cons_append, ← hyrev,
      ← hr2, List.reverse_reverse]
  rw [strip, hl, hrstr]

/-! ### Claim C9 -/

/-- C9: `split_names` is idempotent under re-serialization: joining its
result with newlines and splitting again returns the same list. -/
theorem claim_C9_split_names_idem (cs : List Char) :
    split_names (some (joinNl (split_names (some cs)))) =
      split_names (some cs) := by
  rcases eq_or_ne (split_names (some cs)) [] with hnil | hne
  · rw [hnil]
    with_unfolding_all decide
  · have hel : ∀ x ∈ split_names (some cs), x ≠ [] ∧ strip x = x ∧ '\n' ∉ x :=
      fun x hx => split_names_mem hx
    conv_lhs => rw [split_names]
    rw [strip_joinNl _ hne (fun x hx => ⟨(hel x hx).2.1, (hel x hx).1⟩),
      splitNl_joinNl _ hne (fun x hx => (hel x hx).2.2),
      List.filter_eq_self.mpr
        (fun x hx => by simp [(hel x hx).2.1, (hel x hx).1])]
    conv_rhs => rw [← List.map_id (split_names (some cs))]
    exact List.map_congr_left fun x hx => (hel x hx).2.1

/-! ### Claim C10 -/

/-- Sanity check of the `splitlines` model: splitting with kept line
endings reconstructs the original text when flattened. -/
theorem splitlinesAux_flatten :
    ∀ (n : Nat) (l acc : List Char), l.length ≤ n →
      (splitlinesAux l acc).flatten = acc.reverse ++ l := by
  intro n
  induction n with
  | zero =>
    intro l acc hl
    have hln : l = [] := by
      rw [← List.length_eq_zero]
      omega
    subst hln
    rw [splitlinesAux]
    cases acc <;> simp
  | succ n ih =>
    intro l acc hl
    cases l with
    | nil =>
      rw [splitlinesAux]
      cases acc <;> simp
    | cons c t =>
      rw [splitlinesAux]
      by_cases hr : c = '\r'
      · rw [if_pos hr]
        by_cases hh : t.head? = some '\n'
        · rw [if_pos hh]
          obtain ⟨t2, rfl⟩ : ∃ t2, t = '\n' :: t2 := by
            cases t with
            | nil => simp at hh
            | cons d u =>
              simp at hh
              exact ⟨u, by rw [hh]⟩
          simp only [List.flatten_cons, List.tail_cons]
          rw [ih t2 [] (by simp at hl ⊢; omega)]
          simp [hr]
        · rw [if_neg hh]
          simp only [List.flatten_cons]
          rw [ih t [] (by simp at hl ⊢; omega)]
          simp [hr]
      · rw [if_neg hr]
        by_cases hn : c = '\n'
        · rw [if_pos hn]
          simp only [List.flatten_cons]
          rw [ih t [] (by simp at hl ⊢; omega)]
          simp [hn]
        · rw [if_neg hn]
          rw [ih t (c :: acc) (by simp at hl ⊢; omega)]
          simp

theorem splitlines_flatten (l : List Char) : (splitlines l).flatten = l := by
  rw [splitlines, splitlinesAux_flatten l.length l [] le_rfl]
  simp

/-- C10: `indent_lines text padding` is the concatenation, over the lines
of `text` split with line endings kept, of `padding` followed by the
line; empty input gives empty output. -/
theorem claim_C10_indent_lines :
    (∀ text padding : List Char,
        indent_lines text padding =
          (splitlines text).foldr (fun line r => (padding ++ line) ++ r) [])
    ∧ ∀ padding : List Char, indent_lines [] padding = [] := by
  constructor
  · intro text padding
    rw [indent_lines]
    induction splitlines text with
    | nil => simp
    | cons l L ih => simp [ih]
  · intro padding
    rw [indent_lines, splitlines, splitlinesAux]
    simp
